import Mathlib

/-!
Verification of the Teahouse archival bot's correlation core.

The definitions below are shallow embeddings of the Python functions in
scripts/teahouse-archival-bot.py (the 2018 rewrite, which gathers the whole
pipeline in one file) together with the earlier variants in
scripts/utilities.py, scripts/parse_page_content.py, scripts/userinfo.py and
scripts/find_and_notify.py.  External collaborators (the MediaWiki API) are
abstracted as function arguments: the section list of a page becomes a
function from page names to section lists, and the user directory becomes a
function from usernames to existence/block facts.  Fallible functions return
Except, with error payloads mirroring the exceptions the Python code raises.
-/

/-- Embedding of safe_list_diff (teahouse-archival-bot.py lines 119-176;
utilities.py lines 83-114).  The success value is the 2018 version's output:
the titles of listbefore that are neither in listafter nor duplicated inside
listbefore, kept in listbefore's original order.  The error value carries the
offending titles, as the ValueError of utilities.py does (the 2018 version
raises a bare AssertionError at the same condition); the titles are the
elements of listafter missing from listbefore, listed once each. -/
def safe_list_diff (listbefore listafter : List String) : Except (List String) (List String) :=
  let should_be_empty := listafter.dedup.filter (fun x => !(listbefore.contains x))
  if should_be_empty.isEmpty then
    let duplicate_values := listbefore.dedup.filter (fun k => 1 < listbefore.count k)
    .ok (listbefore.filter
          (fun tn => !(listafter.contains tn) && !(duplicate_values.contains tn)))
  else
    .error should_be_empty

/-- One thread-creation record, the dict with keys revid, name and user that
newsections_at_teahouse builds (teahouse-archival-bot.py lines 762-784). -/
structure ThreadCreation where
  revid : Nat
  name : String
  user : String
deriving DecidableEq

/-- Embedding of list_matching (teahouse-archival-bot.py lines 179-232).
For each archived title in order, the creation records whose trimmed name
equals the trimmed title are collected; exactly one match emits that record,
zero or several matches only log a warning and emit nothing. -/
def list_matching : List String → List ThreadCreation → List ThreadCreation
  | [], _ => []
  | t :: rest, threadscreated =>
    match threadscreated.filter (fun k => k.name.trim == t.trim) with
    | [m] => m :: list_matching rest threadscreated
    | _ => list_matching rest threadscreated

/-- One entry of the section list returned by the parse API for a page: the
fields of interest are the heading text (line) and the fragment identifier
(anchor), cf. get_sections_from_api. -/
structure PageSection where
  line : String
  anchor : String
deriving DecidableEq

/-- Embedding of find_section_anchor (teahouse-archival-bot.py lines
490-530): the anchors of all sections whose trimmed heading equals the
trimmed section name, in page order. -/
def find_section_anchor (inputlistofdict : List PageSection) (sectionname : String) :
    List String :=
  inputlistofdict.filterMap
    (fun item => if sectionname.trim == item.line.trim then some item.anchor else none)

/-- Embedding of the fetch loop opening search_archives_for_section
(teahouse-archival-bot.py lines 550-554; parse_page_content.py lines
139-142).  The collaborator getSections stands for get_sections_from_api.
The first component records, in order, every page the loop fetches; the
second is the resulting dictionary, modelled as a function updated once per
loop iteration (a later assignment to the same key overwrites). -/
def build_archive_contents (getSections : String → List PageSection) :
    List String → (String → List PageSection) → List String × (String → List PageSection)
  | [], d => ([], d)
  | archivelink :: rest, d =>
    let linkcontent := getSections archivelink
    let step := build_archive_contents getSections rest
      (fun k => if k = archivelink then linkcontent else d k)
    (archivelink :: step.1, step.2)

/-- The sequence of fetches search_archives_for_section performs against the
revision source, one entry per get_sections_from_api call, in call order. -/
def archive_fetch_trace (getSections : String → List PageSection)
    (links_to_search : List String) : List String :=
  (build_archive_contents getSections links_to_search (fun _ => [])).1

/-- Embedding of the inner loop of search_archives_for_section: walk the
candidate links, accumulate the anchors matching the section name sn, and
remember as candidatelink the last link that contributed at least one match
(the running candidatelink enters as the second argument).  Returns the final
candidatelink and the concatenated match list. -/
def scan_links (archive_contents : String → List PageSection) (sn : String) :
    List String → Option String → Option String × List String
  | [], candidatelink => (candidatelink, [])
  | arlink :: rest, candidatelink =>
    let linkmatches := find_section_anchor (archive_contents arlink) sn
    let cl2 := if linkmatches.isEmpty then candidatelink else some arlink
    let step := scan_links archive_contents sn rest cl2
    (step.1, linkmatches ++ step.2)

/-- Embedding of the outer loop of search_archives_for_section: one output
per section name.  Exactly one accumulated match produces
candidatelink#anchor; otherwise the empty string marks the link unresolved.
The candidatelink variable persists across iterations, as in the Python
loop; it is only read when the match list is a singleton, in which case the
current iteration necessarily set it (the none case of the match below is
unreachable then). -/
def search_loop (archive_contents : String → List PageSection)
    (links_to_search : List String) : List String → Option String → List String
  | [], _ => []
  | sn :: rest, candidatelink =>
    let step := scan_links archive_contents sn links_to_search candidatelink
    match step.2, step.1 with
    | [m], some c =>
      (c ++ "#" ++ m) :: search_loop archive_contents links_to_search rest step.1
    | _, _ => "" :: search_loop archive_contents links_to_search rest step.1

/-- Embedding of search_archives_for_section (teahouse-archival-bot.py lines
533-587): fetch each candidate link's section list into a dictionary, then
resolve each requested section name against it. -/
def search_archives_for_section (getSections : String → List PageSection)
    (links_to_search sectionnames : List String) : List String :=
  let fetched := build_archive_contents getSections links_to_search (fun _ => [])
  search_loop fetched.2 links_to_search sectionnames none

/-- Specification-side match set for the archive locator: scanning the
candidate list in order, every (page, anchor) pair whose section heading
matches the requested title after trimming.  Stated from the specification's
description of the locator to compare with search_archives_for_section. -/
def locate_matches_spec (getSections : String → List PageSection)
    (links_to_search : List String) (sn : String) : List (String × String) :=
  links_to_search.flatMap
    (fun l => (find_section_anchor (getSections l) sn).map (fun a => (l, a)))

/-- Facts the user directory reports about one username: whether the account
is missing/unknown and whether it carries a currently active block.  This
abstracts the batched get_user_info and get_block_info API calls
(teahouse-archival-bot.py lines 235-352). -/
structure UserFacts where
  missing : Bool
  blocked : Bool
deriving DecidableEq

/-- Embedding of isnotifiable (teahouse-archival-bot.py lines 355-419).  The
directory collaborator is abstracted as facts.  A missing user is not
notified, a currently blocked user is not notified, anyone else is; the
output dictionary is modelled as an association list keyed in input order. -/
def isnotifiable (facts : String → UserFacts) (users : List String) :
    List (String × Bool) :=
  users.map (fun u =>
    if (facts u).missing then (u, false)
    else if (facts u).blocked then (u, false)
    else (u, true))

/-- One notification record, the dict built by generate_notification_list.
The optional keys archivelink and reason become Option fields (none when the
Python dict lacks the key). -/
structure Notif where
  user : String
  thread : String
  invalid : Bool
  archivelink : Option String
  reason : Option String
deriving DecidableEq

/-- Embedding of one iteration of the record-building loop of
generate_notification_list (teahouse-archival-bot.py lines 876-903;
find_and_notify.py lines 84-117).  A non-empty archive link is attached;
an empty one marks the record invalid with reason "archive link not found";
afterwards a non-notifiable user marks it invalid with reason
"user is not notifiable", overwriting any earlier reason. -/
def make_notif (notifiable : Bool) (username tn al : String) : Notif :=
  let notif0 : Notif :=
    { user := username, thread := tn, invalid := false,
      archivelink := none, reason := none }
  let notif1 :=
    if al ≠ "" then { notif0 with archivelink := some al }
    else { notif0 with invalid := true, reason := some "archive link not found" }
  if !notifiable then { notif1 with invalid := true, reason := some "user is not notifiable" }
  else notif1

/-- Embedding of the final loop of generate_notification_list: one record
per index of the archive-link list, reading the matched threads' names and
users at the same index (the lists have equal length in the pipeline, where
the link list is produced from the name list). -/
def generate_notification_list (is_notifiable : String → Bool)
    (thread_matched : List ThreadCreation) (list_of_archive_links : List String) :
    List Notif :=
  let thread_matched_names := thread_matched.map (fun t => t.name)
  let thread_matched_users := thread_matched.map (fun t => t.user)
  (list_of_archive_links.zip (thread_matched_users.zip thread_matched_names)).map
    (fun p => make_notif (is_notifiable p.2.1) p.2.1 p.2.2 p.1)

/-- One revision as returned by get_revisions_from_api with rvprop
timestamp, user, comment and ids. -/
structure Revision where
  revid : Nat
  parentid : Nat
  timestamp : String
  user : String
  comment : String
deriving DecidableEq

/-- Scanner for the body of a wikilink: given the characters following an
opening pair of brackets, find the shortest prefix, free of newlines, that
is closed by a pair of closing brackets.  Returns that body and the
characters after the closing pair.  This implements the lazy dot-star of the
Python regular expression, whose dot does not match a newline. -/
def scanBody : List Char → Option (List Char × List Char)
  | ']' :: ']' :: rest => some ([], rest)
  | '\n' :: _ => none
  | c :: rest =>
    match scanBody rest with
    | some (b, r) => some (c :: b, r)
    | none => none
  | [] => none

/-- Attempt to match one bracketed wikilink at the very start of the
character list; on success return the full matched text, brackets included,
and the remaining characters. -/
def match_wikilink : List Char → Option (List Char × List Char)
  | '[' :: '[' :: t =>
    match scanBody t with
    | some (b, r) => some ('[' :: '[' :: (b ++ [']', ']']), r)
    | none => none
  | _ => none

/-- Fuelled left-to-right scan implementing findall for the non-greedy
bracketed-link pattern of last_archival_edit: at each position try to match
a link; on success emit it and continue after it, otherwise advance one
character.  The fuel only serves structural recursion; one unit per
character of the input is always enough, since every step consumes at least
one character. -/
def find_wikilinks_aux : Nat → List Char → List (List Char)
  | 0, _ => []
  | _ + 1, [] => []
  | fuel + 1, c :: rest =>
    match match_wikilink (c :: rest) with
    | some (link, remaining) => link :: find_wikilinks_aux fuel remaining
    | none => find_wikilinks_aux fuel rest

/-- All bracketed wikilinks of a character list, in order, brackets kept,
as re.findall over the edit summary returns them. -/
def find_wikilinks (s : List Char) : List (List Char) :=
  find_wikilinks_aux s.length s

/-- The archival event assembled by last_archival_edit: the revision ids on
each side of the edit, the wikilink targets extracted from the edit summary
with their brackets stripped, the raw summary and the archiver's name. -/
structure ArchivalEvent where
  after : Nat
  before : Nat
  links : List String
  es : String
  archiver : String
deriving DecidableEq

/-- The two fatal failures of last_archival_edit: the matching edit's
summary holds no wikilink, or no edit by the archiver was found in the
revision window.  Both are raised as ValueError in the Python code and abort
the run. -/
inductive LaeError where
  | noWikilink (es : String)
  | noArchivalEdit
deriving DecidableEq

/-- Embedding of last_archival_edit (teahouse-archival-bot.py lines 787-831;
parse_page_content.py lines 329-363).  The revision table, newest first, is
scanned for the first edit by the archiver; its summary must contain at
least one wikilink, otherwise the run aborts.  If no edit by the archiver
appears, the run aborts as well. -/
def last_archival_edit (archiver : String) : List Revision → Except LaeError ArchivalEvent
  | [] => .error .noArchivalEdit
  | rev :: rest =>
    if rev.user == archiver then
      let es := rev.comment
      let links := find_wikilinks es.toList
      if links.isEmpty then .error (.noWikilink es)
      else
        .ok { after := rev.revid, before := rev.parentid,
              links := links.map (fun l => String.mk ((l.drop 2).dropLast.dropLast)),
              es := es, archiver := archiver }
    else last_archival_edit archiver rest

/-- The literal text the new-section pattern requires after the thread
title: a space, the closing comment marker, and the words new section. -/
def newsection_tail : List Char := " */ new section".toList

/-- Whether the new-section pattern can close at split position k of the
characters following the opening marker: the first k characters (the
candidate title) contain no newline, as the regular expression's dot cannot
cross one, and the literal tail starts right after them. -/
def match_at_k (t : List Char) (k : Nat) : Bool :=
  ((t.take k).all (fun c => c != '\n')) &&
    ((t.drop k).take newsection_tail.length == newsection_tail)

/-- Greedy choice of the split position: the dot-star of the pattern is
greedy, so the largest feasible k wins; candidates are tried from the given
bound downwards. -/
def greedy_k (t : List Char) : Nat → Option Nat
  | 0 => if match_at_k t 0 then some 0 else none
  | k + 1 => if match_at_k t (k + 1) then some (k + 1) else greedy_k t k

/-- Embedding of es_created_newsection (teahouse-archival-bot.py lines
732-759; parse_page_content.py lines 286-302).  The edit summary is matched,
anchored at its start as pattern.match requires, against the pattern slash
star space, greedy title, space star slash new section; some title stands
for the flag-true dict carrying the thread name, none for flag false. -/
def es_created_newsection (editsummary : String) : Option String :=
  let cs := editsummary.toList
  if cs.take 3 == "/* ".toList then
    let t := cs.drop 3
    (greedy_k t t.length).map (fun k => String.mk (t.take k))
  else none

/-! ## Theorems -/

theorem contains_eq_true_iff {l : List String} {a : String} :
    l.contains a = true ↔ a ∈ l := List.elem_iff

/-- Helper: under the precondition that every title of listafter also occurs
in listbefore, the precondition filter of safe_list_diff is empty. -/
theorem safe_list_diff_check_nil {before after : List String}
    (h : ∀ t ∈ after, t ∈ before) :
    after.dedup.filter (fun x => !(before.contains x)) = [] := by
  rw [List.filter_eq_nil_iff]
  intro a ha
  simpa [contains_eq_true_iff] using h a (List.mem_dedup.mp ha)

/-- C1: when every title of the after snapshot occurs in the before
snapshot, safe_list_diff succeeds and returns exactly the titles of the
before snapshot that are absent from the after snapshot and not duplicated
in the before snapshot, in the before snapshot's original order; when the
before snapshot has no duplicates at all, this is the order-preserving list
difference of the two snapshots. -/
theorem safe_list_diff_removed_in_order (before after : List String)
    (h : ∀ t ∈ after, t ∈ before) :
    safe_list_diff before after
        = .ok (before.filter (fun t => !(after.contains t) && before.count t == 1))
      ∧ (before.Nodup →
          safe_list_diff before after
            = .ok (before.filter (fun t => !(after.contains t)))) := by
  have hchk := safe_list_diff_check_nil h
  have hmain : safe_list_diff before after
      = .ok (before.filter (fun t => !(after.contains t) && before.count t == 1)) := by
    unfold safe_list_diff
    rw [hchk]
    simp only [List.isEmpty_nil, if_true]
    congr 1
    apply List.filter_congr
    intro tn htn
    have h1 : (0 : Nat) < before.count tn := List.count_pos_iff.mpr htn
    by_cases hd : 1 < before.count tn
    · have : tn ∈ before.dedup.filter (fun k => 1 < before.count k) := by
        refine List.mem_filter.mpr ⟨List.mem_dedup.mpr htn, by simp [hd]⟩
      have hc : (before.dedup.filter (fun k => 1 < before.count k)).contains tn = true :=
        contains_eq_true_iff.mpr this
      have hne : (before.count tn == 1) = false := by
        simp only [beq_eq_false_iff_ne]
        omega
      rw [hc, hne]
      simp
    · have : ¬ tn ∈ before.dedup.filter (fun k => 1 < before.count k) := by
        intro hmem
        exact hd (by simpa using (List.mem_filter.mp hmem).2)
      have hc : (before.dedup.filter (fun k => 1 < before.count k)).contains tn = false := by
        by_contra hcc
        exact this (contains_eq_true_iff.mp (by revert hcc; cases h' : (before.dedup.filter
          (fun k => 1 < before.count k)).contains tn <;> simp_all))
      have heq : (before.count tn == 1) = true := by
        simp only [beq_iff_eq]
        omega
      rw [hc, heq]
      simp
  refine ⟨hmain, fun hnd => ?_⟩
  rw [hmain]
  congr 1
  apply List.filter_congr
  intro tn htn
  rw [List.count_eq_one_of_mem hnd htn]
  simp

/-- Witness for safe_list_diff_removed_in_order at the doctest input. -/
theorem safe_list_diff_removed_in_order_witness :
    safe_list_diff ["Hello", "See you later", "Bye"] ["Hello"]
        = .ok ((["Hello", "See you later", "Bye"] : List String).filter
            (fun t => !((["Hello"] : List String).contains t)
              && (["Hello", "See you later", "Bye"] : List String).count t == 1))
      ∧ ((["Hello", "See you later", "Bye"] : List String).Nodup →
          safe_list_diff ["Hello", "See you later", "Bye"] ["Hello"]
            = .ok ((["Hello", "See you later", "Bye"] : List String).filter
                (fun t => !((["Hello"] : List String).contains t)))) :=
  safe_list_diff_removed_in_order _ _ (by decide)

/-- C6: safe_list_diff fails exactly when some title of the after snapshot
does not appear in the before snapshot, and the error then carries exactly
the offending titles; an empty before snapshot with a non-empty after
snapshot fails, while an empty after snapshot always succeeds (so the
empty/empty pair succeeds too). -/
theorem safe_list_diff_fails_iff (before after : List String) :
    ((∃ e, safe_list_diff before after = .error e) ↔ ∃ t ∈ after, ¬ t ∈ before)
      ∧ (∀ e, safe_list_diff before after = .error e →
          ∀ t, t ∈ e ↔ (t ∈ after ∧ ¬ t ∈ before))
      ∧ (after = [] → ∃ l, safe_list_diff before after = .ok l)
      ∧ (before = [] → after ≠ [] → ∃ e, safe_list_diff before after = .error e) := by
  have hmem : ∀ t, t ∈ after.dedup.filter (fun x => !(before.contains x))
      ↔ (t ∈ after ∧ ¬ t ∈ before) := by
    intro t
    rw [List.mem_filter, List.mem_dedup]
    constructor
    · rintro ⟨h1, h2⟩
      refine ⟨h1, fun hb => ?_⟩
      rw [contains_eq_true_iff.mpr hb] at h2
      simp at h2
    · rintro ⟨h1, h2⟩
      refine ⟨h1, ?_⟩
      cases hc : before.contains t
      · simp
      · exact absurd (contains_eq_true_iff.mp hc) h2
  by_cases hnil : after.dedup.filter (fun x => !(before.contains x)) = []
  · have hl : safe_list_diff before after
        = .ok (before.filter (fun tn => !(after.contains tn)
            && !((before.dedup.filter (fun k => 1 < before.count k)).contains tn))) := by
      unfold safe_list_diff
      rw [hnil]
      rfl
    refine ⟨?_, ?_, fun _ => ⟨_, hl⟩, ?_⟩
    · constructor
      · rintro ⟨e, he⟩
        rw [hl] at he
        exact absurd he (by simp)
      · rintro ⟨t, ht, htb⟩
        exact absurd ((hmem t).mpr ⟨ht, htb⟩) (by rw [hnil]; exact List.not_mem_nil t)
    · intro e he
      rw [hl] at he
      exact absurd he (by simp)
    · intro hb ha
      obtain ⟨t, ht⟩ := List.exists_mem_of_ne_nil after ha
      exact absurd ((hmem t).mpr ⟨ht, by simp [hb]⟩)
        (by rw [hnil]; exact List.not_mem_nil t)
  · have herr : safe_list_diff before after
        = .error (after.dedup.filter (fun x => !(before.contains x))) := by
      unfold safe_list_diff
      rw [if_neg (by simpa [List.isEmpty_iff] using hnil)]
    refine ⟨?_, ?_, ?_, ?_⟩
    · constructor
      · rintro ⟨e, he⟩
        obtain ⟨t, ht⟩ := List.exists_mem_of_ne_nil _ hnil
        exact ⟨t, (hmem t).mp ht⟩
      · intro _
        exact ⟨_, herr⟩
    · intro e he
      rw [herr] at he
      have : e = after.dedup.filter (fun x => !(before.contains x)) := by
        cases he
        rfl
      rw [this]
      exact hmem
    · intro ha
      exact absurd (by simp [ha]) hnil
    · intro _ _
      exact ⟨_, herr⟩

/-- Witness for safe_list_diff_fails_iff at the doctest input where the
after snapshot holds a title the before snapshot lacks. -/
theorem safe_list_diff_fails_iff_witness :
    ((∃ e, safe_list_diff ["Hello", "See you later"] ["Hello", "Abnormal name"] = .error e)
        ↔ ∃ t ∈ (["Hello", "Abnormal name"] : List String),
            ¬ t ∈ (["Hello", "See you later"] : List String))
      ∧ (∀ e, safe_list_diff ["Hello", "See you later"] ["Hello", "Abnormal name"] = .error e →
          ∀ t, t ∈ e ↔ (t ∈ (["Hello", "Abnormal name"] : List String)
            ∧ ¬ t ∈ (["Hello", "See you later"] : List String)))
      ∧ ((["Hello", "Abnormal name"] : List String) = [] →
          ∃ l, safe_list_diff ["Hello", "See you later"] ["Hello", "Abnormal name"] = .ok l)
      ∧ ((["Hello", "See you later"] : List String) = [] →
          (["Hello", "Abnormal name"] : List String) ≠ [] →
          ∃ e, safe_list_diff ["Hello", "See you later"] ["Hello", "Abnormal name"] = .error e) :=
  safe_list_diff_fails_iff _ _

/-- C3: list_matching emits, for each removed title in input order, the
unique creation record whose trimmed name equals the trimmed title whenever
exactly one such record exists (the count over the record list is one, and
the emitted record is the first and only match), and emits nothing for a
title with zero or several matches; it never fails, so the output is the
sublist of uniquely matched records in removed-title order. -/
theorem list_matching_unique (ta : List String) (tc : List ThreadCreation) :
    list_matching ta tc
      = ta.filterMap (fun t =>
          if tc.countP (fun k => k.name.trim == t.trim) = 1 then
            tc.find? (fun k => k.name.trim == t.trim)
          else none) := by
  induction ta with
  | nil => rfl
  | cons t rest ih =>
    have hcount : tc.countP (fun k => k.name.trim == t.trim)
        = (tc.filter (fun k => k.name.trim == t.trim)).length :=
      List.countP_eq_length_filter _ _
    have hfind : tc.find? (fun k => k.name.trim == t.trim)
        = (tc.filter (fun k => k.name.trim == t.trim)).head? :=
      (List.filter_head? _ _).symm
    cases hf : tc.filter (fun k => k.name.trim == t.trim) with
    | nil =>
      have hl : list_matching (t :: rest) tc = list_matching rest tc := by
        conv_lhs => rw [list_matching]
        rw [hf]
      rw [hl, ih]
      simp only [List.filterMap_cons, hcount, hf]
      simp
    | cons m ms =>
      cases ms with
      | nil =>
        have hl : list_matching (t :: rest) tc = m :: list_matching rest tc := by
          conv_lhs => rw [list_matching]
          rw [hf]
        rw [hl, ih]
        simp only [List.filterMap_cons, hcount, hfind, hf]
        simp
      | cons m2 ms2 =>
        have hl : list_matching (t :: rest) tc = list_matching rest tc := by
          conv_lhs => rw [list_matching]
          rw [hf]
        rw [hl, ih]
        simp only [List.filterMap_cons, hcount, hf]
        simp

/-- C5: the eligibility evaluation covers exactly the input usernames, in
order, and maps a user to true exactly when the directory reports the user
neither missing nor currently blocked; no other criterion enters. -/
theorem isnotifiable_policy (facts : String → UserFacts) (users : List String) :
    (isnotifiable facts users).map Prod.fst = users
      ∧ ∀ u b, (u, b) ∈ isnotifiable facts users →
          (b = true ↔ ((facts u).missing = false ∧ (facts u).blocked = false)) := by
  constructor
  · unfold isnotifiable
    rw [List.map_map]
    have hcg : ∀ u ∈ users, (Prod.fst ∘ fun u =>
        if (facts u).missing then (u, false)
        else if (facts u).blocked then (u, false) else (u, true)) u = id u := by
      intro u _
      by_cases h1 : (facts u).missing <;> by_cases h2 : (facts u).blocked <;>
        simp [h1, h2]
    rw [List.map_congr_left hcg, List.map_id]
  · intro u b hmem
    unfold isnotifiable at hmem
    rcases List.mem_map.mp hmem with ⟨x, -, heq⟩
    by_cases h1 : (facts x).missing
    · rw [if_pos h1] at heq
      injection heq with hxu hb
      subst hxu
      subst hb
      simp [h1]
    · rw [if_neg h1] at heq
      by_cases h2 : (facts x).blocked
      · rw [if_pos h2] at heq
        injection heq with hxu hb
        subst hxu
        subst hb
        simp [h1, h2]
      · rw [if_neg h2] at heq
        injection heq with hxu hb
        subst hxu
        subst hb
        simp [h1, h2]

/-- Helper: index lookup distributes over zip when both sides have an
entry at the index. -/
theorem getElem?_zip_some {α β : Type} :
    ∀ {l1 : List α} {l2 : List β} {i : Nat} {a : α} {b : β},
      l1[i]? = some a → l2[i]? = some b → (l1.zip l2)[i]? = some (a, b) := by
  intro l1
  induction l1 with
  | nil => intro l2 i a b h1 _; simp at h1
  | cons x xs ih =>
    intro l2 i a b h1 h2
    cases l2 with
    | nil => simp at h2
    | cons y ys =>
      cases i with
      | zero =>
        simp at h1 h2
        simp [List.zip_cons_cons, h1, h2]
      | succ j =>
        simp only [List.zip_cons_cons, List.getElem?_cons_succ] at h1 h2 ⊢
        exact ih h1 h2

/-- Helper: the notification record generate_notification_list places at
index i is the loop body applied to the matched thread and archive link at
that index. -/
theorem generate_notification_list_getElem (f : String → Bool)
    (tm : List ThreadCreation) (links : List String) (i : Nat)
    (t : ThreadCreation) (al : String)
    (ht : tm[i]? = some t) (hal : links[i]? = some al) :
    (generate_notification_list f tm links)[i]?
      = some (make_notif (f t.user) t.user t.name al) := by
  unfold generate_notification_list
  have hu : (tm.map (fun t => t.user))[i]? = some t.user := by
    rw [List.getElem?_map, ht]
    rfl
  have hn : (tm.map (fun t => t.name))[i]? = some t.name := by
    rw [List.getElem?_map, ht]
    rfl
  have hz1 := getElem?_zip_some hu hn
  have hz2 := getElem?_zip_some hal hz1
  rw [List.getElem?_map, hz2]
  rfl

/-- Counterexample for C2 as stated: a correlated thread whose archive link
is unresolved and whose author is not notifiable ends up with reason
"user is not notifiable", not "archive link not found". -/
theorem notification_reason_overwrite_counterexample :
    (generate_notification_list (fun _ => false)
        [{ revid := 1, name := "T", user := "U" }] [""]).map (fun n => n.reason)
      = [some "user is not notifiable"]
    ∧ (generate_notification_list (fun _ => false)
        [{ revid := 1, name := "T", user := "U" }] [""]).map (fun n => n.reason)
      ≠ [some "archive link not found"] := by decide

/-- C2 (amended): each correlated thread yields one record; an unresolved
(empty) archive link marks it invalid with reason "archive link not found"
only when the author is notifiable, because the eligibility check runs
second and overwrites the reason: every thread whose author fails the
policy carries reason "user is not notifiable", whether or not its archive
link was resolved. -/
theorem generate_notification_list_reasons (f : String → Bool)
    (tm : List ThreadCreation) (links : List String) (i : Nat)
    (t : ThreadCreation) (al : String)
    (ht : tm[i]? = some t) (hal : links[i]? = some al) :
    (generate_notification_list f tm links)[i]?
      = some { user := t.user, thread := t.name,
               invalid := (al == "" || !(f t.user)),
               archivelink := if al = "" then none else some al,
               reason := if !(f t.user) then some "user is not notifiable"
                         else if al = "" then some "archive link not found"
                         else none } := by
  rw [generate_notification_list_getElem f tm links i t al ht hal]
  unfold make_notif
  by_cases h1 : al = "" <;> by_cases h2 : f t.user <;>
    simp [h1, h2, String.ext_iff]

/-- Witness for generate_notification_list_reasons: one thread with a
resolved link and a non-notifiable author gets reason
"user is not notifiable". -/
theorem generate_notification_list_reasons_witness :
    (generate_notification_list (fun _ => false)
        [{ revid := 1, name := "T", user := "U" }] ["P#a"])[0]?
      = some { user := "U", thread := "T", invalid := true,
               archivelink := some "P#a", reason := some "user is not notifiable" } := by
  have h := generate_notification_list_reasons (fun _ => false)
    [{ revid := 1, name := "T", user := "U" }] ["P#a"] 0
    { revid := 1, name := "T", user := "U" } "P#a" (by decide) (by decide)
  simpa using h

/-- Helper: the record built by the notification loop keeps the thread
author as its user field in every branch. -/
theorem make_notif_user (b : Bool) (u tn al : String) :
    (make_notif b u tn al).user = u := by
  unfold make_notif
  by_cases h1 : al = "" <;> by_cases h2 : b <;> simp [h1, h2]

/-- Helper: the record built by the notification loop keeps the thread name
as its thread field in every branch. -/
theorem make_notif_thread (b : Bool) (u tn al : String) :
    (make_notif b u tn al).thread = tn := by
  unfold make_notif
  by_cases h1 : al = "" <;> by_cases h2 : b <;> simp [h1, h2]

/-- Helper: every record built by the notification loop is explicitly
flagged, carrying a reason whenever it is invalid. -/
theorem make_notif_flagged (b : Bool) (u tn al : String) :
    (make_notif b u tn al).invalid = false
      ∨ ((make_notif b u tn al).invalid = true
          ∧ ∃ r, (make_notif b u tn al).reason = some r) := by
  unfold make_notif
  by_cases h1 : al = "" <;> by_cases h2 : b <;> simp [h1, h2]

/-- C7: on equal-length inputs (as the pipeline produces them), the
notification list holds exactly one record per correlated thread, the
record at each index names the thread and author correlated at that index
(correlation order is preserved), and every record is either valid or
invalid together with a reason string: no correlated thread is silently
omitted. -/
theorem generate_notification_list_total (f : String → Bool)
    (tm : List ThreadCreation) (links : List String)
    (h : links.length = tm.length) :
    (generate_notification_list f tm links).length = tm.length
      ∧ (∀ i : Nat, Option.map (fun n : Notif => (n.user, n.thread))
            ((generate_notification_list f tm links)[i]?)
          = Option.map (fun t : ThreadCreation => (t.user, t.name)) tm[i]?)
      ∧ ∀ n ∈ generate_notification_list f tm links,
          n.invalid = false ∨ (n.invalid = true ∧ ∃ r, n.reason = some r) := by
  have hlen : (generate_notification_list f tm links).length = tm.length := by
    unfold generate_notification_list
    rw [List.length_map, List.length_zip, List.length_zip, List.length_map,
      List.length_map, h]
    simp
  refine ⟨hlen, ?_, ?_⟩
  · intro i
    by_cases hi : i < tm.length
    · obtain ⟨t, ht⟩ : ∃ t, tm[i]? = some t := by
        rw [List.getElem?_eq_getElem hi]
        exact ⟨_, rfl⟩
      obtain ⟨al, hal⟩ : ∃ al, links[i]? = some al := by
        rw [List.getElem?_eq_getElem (by omega : i < links.length)]
        exact ⟨_, rfl⟩
      rw [generate_notification_list_getElem f tm links i t al ht hal, ht]
      simp [make_notif_user, make_notif_thread]
    · rw [List.getElem?_eq_none (by omega : tm.length ≤ i),
        List.getElem?_eq_none (by rw [hlen]; omega)]
      rfl
  · intro n hn
    unfold generate_notification_list at hn
    rcases List.mem_map.mp hn with ⟨p, -, hp⟩
    rw [← hp]
    exact make_notif_flagged _ _ _ _

/-- Witness for generate_notification_list_total at a two-thread input,
one resolved and one unresolved link. -/
theorem generate_notification_list_total_witness :
    (generate_notification_list (fun _ => true)
        [{ revid := 1, name := "Thread A", user := "U1" },
         { revid := 2, name := "Thread B", user := "U2" }]
        ["ArchiveP#Thread_A", ""]).length
      = ([{ revid := 1, name := "Thread A", user := "U1" },
          { revid := 2, name := "Thread B", user := "U2" }] : List ThreadCreation).length
      ∧ (∀ i : Nat, Option.map (fun n : Notif => (n.user, n.thread))
            ((generate_notification_list (fun _ => true)
              [{ revid := 1, name := "Thread A", user := "U1" },
               { revid := 2, name := "Thread B", user := "U2" }]
              ["ArchiveP#Thread_A", ""])[i]?)
          = Option.map (fun t : ThreadCreation => (t.user, t.name))
              ([{ revid := 1, name := "Thread A", user := "U1" },
                { revid := 2, name := "Thread B", user := "U2" }] :
                  List ThreadCreation)[i]?)
      ∧ ∀ n ∈ generate_notification_list (fun _ => true)
            [{ revid := 1, name := "Thread A", user := "U1" },
             { revid := 2, name := "Thread B", user := "U2" }]
            ["ArchiveP#Thread_A", ""],
          n.invalid = false ∨ (n.invalid = true ∧ ∃ r, n.reason = some r) :=
  generate_notification_list_total _ _ _ (by decide)

/-- Helper: the fetch loop performs one fetch per entry of the candidate
list, in list order, duplicates included. -/
theorem build_archive_contents_trace (g : String → List PageSection) :
    ∀ (links : List String) (d : String → List PageSection),
      (build_archive_contents g links d).1 = links := by
  intro links
  induction links with
  | nil => intro d; rfl
  | cons a rest ih =>
    intro d
    simp [build_archive_contents, ih]

/-- Helper: the dictionary built by the fetch loop leaves keys outside the
candidate list untouched. -/
theorem build_archive_contents_not_mem (g : String → List PageSection) :
    ∀ (links : List String) (d : String → List PageSection) (k : String),
      ¬ k ∈ links → (build_archive_contents g links d).2 k = d k := by
  intro links
  induction links with
  | nil => intro d k _; rfl
  | cons a rest ih =>
    intro d k hk
    have h1 : ¬ k ∈ rest := fun h => hk (List.mem_cons_of_mem a h)
    have h2 : k ≠ a := fun h => hk (h ▸ List.mem_cons_self a rest)
    simp only [build_archive_contents]
    rw [ih _ k h1]
    simp [h2]

/-- Helper: the dictionary built by the fetch loop maps every fetched page
to its section list from the revision source. -/
theorem build_archive_contents_mem (g : String → List PageSection) :
    ∀ (links : List String) (d : String → List PageSection) (k : String),
      k ∈ links → (build_archive_contents g links d).2 k = g k := by
  intro links
  induction links with
  | nil => intro d k h; simp at h
  | cons a rest ih =>
    intro d k hk
    by_cases h1 : k ∈ rest
    · simp only [build_archive_contents]
      exact ih _ k h1
    · have h2 : k = a := by
        rcases List.mem_cons.mp hk with h | h
        · exact h
        · exact absurd h h1
      simp only [build_archive_contents]
      rw [build_archive_contents_not_mem g rest _ k h1]
      simp [h2]

/-- Helper: the match list accumulated by the inner locator loop is the
concatenation, over the candidate list in order, of the anchors matching
the section name. -/
theorem scan_links_snd (ac : String → List PageSection) (sn : String) :
    ∀ (links : List String) (cl : Option String),
      (scan_links ac sn links cl).2
        = links.flatMap (fun l => find_section_anchor (ac l) sn) := by
  intro links
  induction links with
  | nil => intro cl; rfl
  | cons a rest ih =>
    intro cl
    simp [scan_links, ih]

/-- Helper: when no candidate page contains the section, the inner loop
leaves the running candidatelink unchanged and accumulates nothing. -/
theorem scan_links_all_empty (ac : String → List PageSection) (sn : String) :
    ∀ (links : List String) (cl : Option String),
      (∀ l ∈ links, find_section_anchor (ac l) sn = []) →
      scan_links ac sn links cl = (cl, []) := by
  intro links
  induction links with
  | nil => intro cl _; rfl
  | cons a rest ih =>
    intro cl h
    have ha := h a (List.mem_cons_self a rest)
    simp [scan_links, ha, ih _ (fun l hl => h l (List.mem_cons_of_mem a hl))]

/-- Helper: the anchors matched over the candidate list are the second
components of the (page, anchor) pairs matched over the candidate list. -/
theorem flatMap_anchors_eq (ac : String → List PageSection) (sn : String)
    (links : List String) :
    links.flatMap (fun l => find_section_anchor (ac l) sn)
      = (links.flatMap
          (fun l => (find_section_anchor (ac l) sn).map (fun x => (l, x)))).map
            Prod.snd := by
  induction links with
  | nil => rfl
  | cons l rest ih =>
    simp only [List.flatMap_cons, List.map_append, List.map_map, ih]
    congr 1
    have hc : (Prod.snd ∘ fun x : String => (l, x)) = fun x : String => x := rfl
    rw [hc]
    exact (List.map_id' _).symm

/-- Helper: when the (page, anchor) pairs matched over the whole candidate
list form a singleton, the inner loop ends with that pair's page as
candidatelink and that pair's anchor as the single accumulated match. -/
theorem scan_links_singleton (ac : String → List PageSection) (sn : String) :
    ∀ (links : List String) (cl : Option String) (p a : String),
      links.flatMap (fun l => (find_section_anchor (ac l) sn).map (fun x => (l, x)))
        = [(p, a)] →
      scan_links ac sn links cl = (some p, [a]) := by
  intro links
  induction links with
  | nil =>
    intro cl p a h
    simp at h
  | cons l rest ih =>
    intro cl p a h
    rw [List.flatMap_cons] at h
    cases hx : find_section_anchor (ac l) sn with
    | nil =>
      rw [hx] at h
      simp only [List.map_nil, List.nil_append] at h
      simp [scan_links, hx, ih _ p a h]
    | cons a1 as1 =>
      rw [hx] at h
      simp only [List.map_cons, List.cons_append, List.cons.injEq] at h
      obtain ⟨h1, h2⟩ := h
      obtain ⟨h2a, h2b⟩ := List.append_eq_nil.mp h2
      have has1 : as1 = [] := by
        cases as1 with
        | nil => rfl
        | cons z zs => simp at h2a
      have hp : l = p := congrArg Prod.fst h1
      have ha : a1 = a := congrArg Prod.snd h1
      have hrest : ∀ l2 ∈ rest, find_section_anchor (ac l2) sn = [] := by
        intro l2 hl2
        cases hy : find_section_anchor (ac l2) sn with
        | nil => rfl
        | cons b bs =>
          exfalso
          have hmem : (l2, b) ∈ rest.flatMap
              (fun l3 => (find_section_anchor (ac l3) sn).map (fun x => (l3, x))) := by
            apply List.mem_flatMap.mpr
            exact ⟨l2, hl2, by rw [hy]; exact List.mem_cons_self _ _⟩
          rw [h2b] at hmem
          simp at hmem
      rw [← hp, ← ha]
      have hstep := scan_links_all_empty ac sn rest (some l) hrest
      simp [scan_links, hx, has1, hstep]

/-- Helper: the outer locator loop maps each requested title to the
resolved link when the (page, anchor) pairs matched over the candidate list
form a singleton, and to the empty string otherwise, regardless of the
incoming candidatelink. -/
theorem search_loop_map (ac : String → List PageSection) (links : List String) :
    ∀ (sns : List String) (cl : Option String),
      search_loop ac links sns cl
        = sns.map (fun sn =>
            match links.flatMap
                (fun l => (find_section_anchor (ac l) sn).map (fun x => (l, x))) with
            | [(p, a)] => p ++ "#" ++ a
            | _ => "") := by
  intro sns
  induction sns with
  | nil => intro cl; rfl
  | cons sn rest ih =>
    intro cl
    rw [List.map_cons]
    have hsnd : (scan_links ac sn links cl).2
        = (links.flatMap
            (fun l => (find_section_anchor (ac l) sn).map (fun x => (l, x)))).map
              Prod.snd := by
      rw [scan_links_snd, flatMap_anchors_eq]
    cases hP : links.flatMap
        (fun l => (find_section_anchor (ac l) sn).map (fun x => (l, x))) with
    | nil =>
      rw [hP] at hsnd
      simp only [List.map_nil] at hsnd
      simp only [search_loop, hsnd, ih]
    | cons pr prest =>
      cases prest with
      | nil =>
        obtain ⟨p, a⟩ := pr
        have hscan : scan_links ac sn links cl = (some p, [a]) :=
          scan_links_singleton ac sn links cl p a hP
        simp only [search_loop, hscan, ih]
      | cons pr2 prest2 =>
        rw [hP] at hsnd
        simp only [List.map_cons] at hsnd
        simp only [search_loop, hsnd, ih]

/-- Helper: flatMap respects pointwise equality on the list's members. -/
theorem flatMap_congr_mem {α β : Type} {l : List α} {f g : α → List β}
    (h : ∀ a ∈ l, f a = g a) : l.flatMap f = l.flatMap g := by
  induction l with
  | nil => rfl
  | cons a rest ih =>
    rw [List.flatMap_cons, List.flatMap_cons, h a (List.mem_cons_self a rest),
      ih (fun x hx => h x (List.mem_cons_of_mem a hx))]

/-- C4: the locator returns one output per requested title, in order; the
output for a title is the resolved link page#anchor when exactly one
(page, anchor) pair matches the trimmed title across the scan of the whole
candidate list, and the empty unresolved marker when that scan finds zero
matches or more than one. -/
theorem search_archives_one_per_title (g : String → List PageSection)
    (links_to_search sectionnames : List String) :
    (search_archives_for_section g links_to_search sectionnames).length
        = sectionnames.length
      ∧ ∀ i : Nat, (search_archives_for_section g links_to_search sectionnames)[i]?
          = Option.map (fun sn =>
              match locate_matches_spec g links_to_search sn with
              | [(p, a)] => p ++ "#" ++ a
              | _ => "") sectionnames[i]? := by
  have hd : ∀ sn, links_to_search.flatMap
      (fun l => (find_section_anchor
          ((build_archive_contents g links_to_search (fun _ => [])).2 l) sn).map
            (fun x => (l, x)))
      = locate_matches_spec g links_to_search sn := by
    intro sn
    unfold locate_matches_spec
    apply flatMap_congr_mem
    intro l hl
    rw [build_archive_contents_mem g links_to_search _ l hl]
  have hmain : search_archives_for_section g links_to_search sectionnames
      = sectionnames.map (fun sn =>
          match locate_matches_spec g links_to_search sn with
          | [(p, a)] => p ++ "#" ++ a
          | _ => "") := by
    unfold search_archives_for_section
    rw [search_loop_map]
    apply List.map_congr_left
    intro sn _
    rw [hd sn]
  constructor
  · rw [hmain, List.length_map]
  · intro i
    rw [hmain, List.getElem?_map]

/-- Counterexample for C8 as stated: a candidate page listed twice is
fetched twice within one locator invocation, not once. -/
theorem archive_fetch_once_counterexample :
    archive_fetch_trace (fun _ => []) ["A", "A"] = ["A", "A"]
      ∧ ¬ (archive_fetch_trace (fun _ => []) ["A", "A"]).count "A" = 1 := by
  decide

/-- C8 (amended): the locator fetches the section list of each candidate
page once per occurrence of the page in the candidate list, so the fetch
trace equals the candidate list itself; in particular, when the candidate
list has no duplicate entries, each distinct candidate page is fetched
exactly once per invocation. -/
theorem archive_fetch_trace_eq (g : String → List PageSection)
    (links : List String) :
    archive_fetch_trace g links = links
      ∧ (links.Nodup → ∀ l ∈ links, (archive_fetch_trace g links).count l = 1) := by
  have h1 : archive_fetch_trace g links = links :=
    build_archive_contents_trace g links _
  refine ⟨h1, fun hnd l hl => ?_⟩
  rw [h1]
  exact List.count_eq_one_of_mem hnd hl

/-- C9: when the first revision by the archiver in the scanned table has an
edit summary containing no bracketed wikilink, last_archival_edit aborts
with the fatal no-wikilink error carrying that summary, rather than
returning an event with an empty candidate list. -/
theorem last_archival_edit_no_wikilink_fatal
    (archiver : String) (pre : List Revision) (rev : Revision)
    (post : List Revision)
    (hpre : ∀ r ∈ pre, r.user ≠ archiver)
    (hrev : rev.user = archiver)
    (hlinks : find_wikilinks rev.comment.toList = []) :
    last_archival_edit archiver (pre ++ rev :: post)
      = .error (.noWikilink rev.comment) := by
  induction pre with
  | nil =>
    rw [List.nil_append]
    have hbeq : (rev.user == archiver) = true := beq_iff_eq.mpr hrev
    simp only [last_archival_edit, hbeq, if_true, hlinks]
    rfl
  | cons r rs ih =>
    rw [List.cons_append]
    have hr : (r.user == archiver) = false := by
      rw [beq_eq_false_iff_ne]
      exact hpre r (List.mem_cons_self r rs)
    simp only [last_archival_edit, hr, Bool.false_eq_true, if_false]
    exact ih (fun x hx => hpre x (List.mem_cons_of_mem r hx))

/-- Witness for last_archival_edit_no_wikilink_fatal: an archiver edit
whose summary holds no wikilink aborts the run. -/
theorem last_archival_edit_no_wikilink_fatal_witness :
    last_archival_edit "Lowercase sigmabot III"
        [{ revid := 10, parentid := 9, timestamp := "t",
           user := "Lowercase sigmabot III", comment := "no links" }]
      = .error (.noWikilink "no links") :=
  last_archival_edit_no_wikilink_fatal "Lowercase sigmabot III" []
    { revid := 10, parentid := 9, timestamp := "t",
      user := "Lowercase sigmabot III", comment := "no links" } []
    (by simp) rfl (by decide)

/-- Helper: a successful greedy split satisfies the split predicate. -/
theorem greedy_k_some_match {t : List Char} :
    ∀ {n k : Nat}, greedy_k t n = some k → match_at_k t k = true := by
  intro n
  induction n with
  | zero =>
    intro k h
    unfold greedy_k at h
    by_cases hm : match_at_k t 0 = true
    · rw [if_pos hm] at h
      cases h
      exact hm
    · rw [if_neg hm] at h
      exact absurd h (by simp)
  | succ n ih =>
    intro k h
    unfold greedy_k at h
    by_cases hm : match_at_k t (n + 1) = true
    · rw [if_pos hm] at h
      cases h
      exact hm
    · rw [if_neg hm] at h
      exact ih h

/-- Helper: if some split position within the bound satisfies the split
predicate, the greedy search succeeds. -/
theorem greedy_k_isSome_of_match {t : List Char} {k : Nat}
    (hk : match_at_k t k = true) :
    ∀ {n : Nat}, k ≤ n → (greedy_k t n).isSome = true := by
  intro n
  induction n with
  | zero =>
    intro hle
    have h0 : k = 0 := Nat.le_zero.mp hle
    unfold greedy_k
    rw [if_pos (h0 ▸ hk)]
    rfl
  | succ n ih =>
    intro hle
    by_cases hm : match_at_k t (n + 1) = true
    · unfold greedy_k
      rw [if_pos hm]
      rfl
    · have hkn : k ≤ n := by
        rcases Nat.lt_or_ge k (n + 1) with h | h
        · omega
        · exfalso
          have hke : k = n + 1 := by omega
          exact hm (hke ▸ hk)
      unfold greedy_k
      rw [if_neg hm]
      exact ih hkn

/-- C10: the edit-summary parser produces a thread-creation result exactly
when the new-section pattern occurs anchored at the very start of the
summary, that is, when the summary decomposes as the opening marker, a
newline-free title, the literal closing text and an arbitrary remainder;
in particular a summary that only contains the pattern somewhere later,
such as a signing bot's quoted summary, produces nothing. -/
theorem es_created_newsection_anchored (es : String) :
    ((es_created_newsection es).isSome = true
      ↔ ∃ body rest : List Char, (∀ c ∈ body, c ≠ '\n')
          ∧ es.toList = "/* ".toList ++ body ++ " */ new section".toList ++ rest)
    ∧ es_created_newsection
        "Signing comment by Foo on \"/* Bar */ new section\"" = none := by
  constructor
  · constructor
    · intro h
      unfold es_created_newsection at h
      by_cases hc : (es.toList.take 3 == "/* ".toList) = true
      · rw [if_pos hc] at h
        have h2 : (Option.map (fun k => String.mk ((es.toList.drop 3).take k))
            (greedy_k (es.toList.drop 3) (es.toList.drop 3).length)).isSome
              = true := h
        cases hk : greedy_k (es.toList.drop 3) (es.toList.drop 3).length with
        | none =>
          rw [hk] at h2
          simp at h2
        | some k =>
          have hm := greedy_k_some_match hk
          unfold match_at_k at hm
          rw [Bool.and_eq_true] at hm
          obtain ⟨hall, htail⟩ := hm
          refine ⟨(es.toList.drop 3).take k,
            ((es.toList.drop 3).drop k).drop newsection_tail.length, ?_, ?_⟩
          · intro c hcmem
            have := List.all_eq_true.mp hall c hcmem
            simpa using this
          · have h3 : es.toList.take 3 = "/* ".toList := beq_iff_eq.mp hc
            have htl : ((es.toList.drop 3).drop k).take newsection_tail.length
                = newsection_tail := beq_iff_eq.mp htail
            calc es.toList
                = es.toList.take 3 ++ es.toList.drop 3 :=
                  (List.take_append_drop 3 es.toList).symm
              _ = "/* ".toList ++ ((es.toList.drop 3).take k
                    ++ (es.toList.drop 3).drop k) := by
                  rw [h3, List.take_append_drop]
              _ = "/* ".toList ++ ((es.toList.drop 3).take k
                    ++ (((es.toList.drop 3).drop k).take newsection_tail.length
                      ++ ((es.toList.drop 3).drop k).drop newsection_tail.length)) := by
                  conv_rhs => rw [List.take_append_drop]
              _ = "/* ".toList ++ (es.toList.drop 3).take k
                    ++ " */ new section".toList
                    ++ ((es.toList.drop 3).drop k).drop newsection_tail.length := by
                  rw [htl]
                  simp [newsection_tail, List.append_assoc]
      · rw [if_neg hc] at h
        simp at h
    · rintro ⟨body, rest, hnl, hdec⟩
      unfold es_created_newsection
      have h3 : es.toList.take 3 = "/* ".toList := by
        rw [hdec]
        rfl
      have hcond : (es.toList.take 3 == "/* ".toList) = true :=
        beq_iff_eq.mpr h3
      rw [if_pos hcond]
      show (Option.map (fun k => String.mk ((es.toList.drop 3).take k))
          (greedy_k (es.toList.drop 3) (es.toList.drop 3).length)).isSome = true
      have ht : es.toList.drop 3 = body ++ " */ new section".toList ++ rest := by
        rw [hdec]
        rfl
      have hmk : match_at_k (es.toList.drop 3) body.length = true := by
        unfold match_at_k
        rw [Bool.and_eq_true]
        constructor
        · rw [ht, List.append_assoc, List.take_left]
          apply List.all_eq_true.mpr
          intro c hcmem
          simpa using hnl c hcmem
        · rw [ht, List.append_assoc, List.drop_left]
          have htake : (" */ new section".toList ++ rest).take newsection_tail.length
              = newsection_tail := by
            have hlen : (" */ new section".toList).length = newsection_tail.length :=
              rfl
            rw [← hlen, List.take_left]
            rfl
          rw [htake]
          exact beq_self_eq_true _
      have hkb : body.length ≤ (es.toList.drop 3).length := by
        rw [ht]
        simp only [List.length_append]
        omega
      obtain ⟨k2, hk2⟩ :=
        Option.isSome_iff_exists.mp (greedy_k_isSome_of_match hmk hkb)
      rw [hk2]
      rfl
  · decide
